import Mathlib

/-!
# ConditionWaiter: a verified model of the polling wait helper

The repository's flaky-test guide (`.circleci/fix-flaky-test.md`, the
`checkInitialization` snippet) recommends a "poll until ready" pattern.
The specification abstracts this pattern as a **ConditionWaiter**: a
finite state machine that repeatedly evaluates a caller-supplied
predicate every `pollIntervalMs` (starting immediately at elapsed time
0) until the predicate is true (`Satisfied`), the deadline `timeoutMs`
is exceeded (`TimedOut`), an optional cancellation signal is raised
(`Cancelled`), or the predicate throws (`PredicateError`).  A malformed
request (`pollIntervalMs <= 0` or `timeoutMs <= 0`) is rejected
synchronously with `InvalidArgument` before any polling.

This file embeds that state machine and proves the specification's
testable properties about it.  Time is discrete (milliseconds, `Nat`);
the n-th predicate evaluation happens at elapsed time `n * pollIntervalMs`.
A predicate is modelled as a function from the evaluation index to a
`PredResult` (returned boolean or thrown error), and the optional
cancellation signal as the time at which it is raised, if ever.
-/

/-- Result of a single predicate evaluation: either a returned boolean
or a thrown error (carrying an error payload). -/
inductive PredResult where
  | ok (b : Bool)
  | thrown (e : Nat)
deriving DecidableEq, Repr

/-- Modelled from the spec: the ConditionWaiter component and its
`WaitRequest` are described only in the specification (sections 3-5);
the repository's source contains just the illustrative
`checkInitialization` polling snippet, not the helper itself.
A `WaitRequest` bundles the predicate (indexed by evaluation number),
the polling interval and timeout in milliseconds (integers, so that
malformed non-positive values are representable), and the optional
cancellation signal given by the time at which it is raised. -/
structure WaitRequest where
  predicate : Nat → PredResult
  pollIntervalMs : Int
  timeoutMs : Int
  cancelAt : Option Nat

/-- Terminal outcome of a wait: the spec's `WaitOutcome` variants plus
the two error outcomes (`InvalidArgument`, `PredicateError`) and
`Cancelled`. -/
inductive Outcome where
  | satisfied
  | timedOut
  | cancelled
  | invalidArgument
  | predicateError (e : Nat)
deriving DecidableEq, Repr

/-- What a resolved wait reports: the outcome, how many predicate
evaluations occurred, and the elapsed time (ms) at resolution. -/
structure WaitResult where
  outcome : Outcome
  evals : Nat
  elapsed : Nat
deriving DecidableEq, Repr

/-- States of the waiter's finite state machine: either about to
perform poll number `n`, or resolved with a terminal result. -/
inductive WState where
  | polling (n : Nat)
  | done (r : WaitResult)
deriving DecidableEq, Repr

/-- Modelled from the spec: one poll at evaluation index `n` (elapsed
time `n * pollIntervalMs`), assuming the cancellation signal has not
been raised yet.  If the deadline is exceeded the wait resolves
`TimedOut`; otherwise the predicate is evaluated: a thrown error
resolves `PredicateError`, `true` resolves `Satisfied`, and `false`
schedules the next poll. -/
def stepPoll (req : WaitRequest) (n : Nat) : WState :=
  let p := req.pollIntervalMs.toNat
  if req.timeoutMs.toNat < n * p then .done ⟨.timedOut, n, n * p⟩
  else
    match req.predicate n with
    | .thrown e => .done ⟨.predicateError e, n + 1, n * p⟩
    | .ok true => .done ⟨.satisfied, n + 1, n * p⟩
    | .ok false => .polling (n + 1)

/-- Modelled from the spec: one transition of the waiter's state
machine.  A resolved wait stays resolved.  At poll `n`, a cancellation
signal already raised (at time `c ≤ n * pollIntervalMs`) resolves the
wait `Cancelled` immediately — at elapsed time `c`, before the
predicate is evaluated; otherwise the poll proceeds via `stepPoll`. -/
def step (req : WaitRequest) : WState → WState
  | .done r => .done r
  | .polling n =>
    match req.cancelAt with
    | some c =>
      if c ≤ n * req.pollIntervalMs.toNat then .done ⟨.cancelled, n, c⟩
      else stepPoll req n
    | none => stepPoll req n

/-- Run the state machine for at most `fuel` transitions, reporting the
terminal result if one is reached. -/
def run (req : WaitRequest) : Nat → WState → Option WaitResult
  | 0, w =>
    match w with
    | .done r => some r
    | .polling _ => none
  | fuel + 1, w =>
    match w with
    | .done r => some r
    | .polling n => run req fuel (step req (.polling n))

/-- Modelled from the spec: the wait operation.  A malformed request
(`pollIntervalMs ≤ 0` or `timeoutMs ≤ 0`) is rejected synchronously
with `InvalidArgument` and zero predicate evaluations; otherwise the
polling state machine runs from poll 0.  The fuel
`timeoutMs / pollIntervalMs + 2` covers every poll up to and including
the first one past the deadline, so the machine always reaches a
terminal state (proved below). -/
def wait (req : WaitRequest) : Option WaitResult :=
  if req.pollIntervalMs ≤ 0 ∨ req.timeoutMs ≤ 0 then
    some ⟨.invalidArgument, 0, 0⟩
  else
    run req (req.timeoutMs.toNat / req.pollIntervalMs.toNat + 2) (.polling 0)

/-- A resolved state is a fixed point of the state machine. -/
theorem step_done (req : WaitRequest) (r : WaitResult) :
    step req (.done r) = .done r := rfl

/-- Once resolved, any amount of further fuel reports the same result. -/
theorem run_done (req : WaitRequest) (f : Nat) (r : WaitResult) :
    run req f (.done r) = some r := by
  cases f <;> rfl

theorem run_succ_polling (req : WaitRequest) (f n : Nat) :
    run req (f + 1) (.polling n) = run req f (step req (.polling n)) := rfl

theorem step_none {req : WaitRequest} (hc : req.cancelAt = none) (n : Nat) :
    step req (.polling n) = stepPoll req n := by
  simp [step, hc]

theorem step_cancel_hit {req : WaitRequest} {c : Nat} (hc : req.cancelAt = some c)
    {n : Nat} (hcc : c ≤ n * req.pollIntervalMs.toNat) :
    step req (.polling n) = .done ⟨.cancelled, n, c⟩ := by
  simp [step, hc, hcc]

theorem step_cancel_miss {req : WaitRequest} {c : Nat} (hc : req.cancelAt = some c)
    {n : Nat} (hcc : ¬ c ≤ n * req.pollIntervalMs.toNat) :
    step req (.polling n) = stepPoll req n := by
  simp [step, hc, hcc]

theorem stepPoll_timedOut {req : WaitRequest} {n : Nat}
    (h : req.timeoutMs.toNat < n * req.pollIntervalMs.toNat) :
    stepPoll req n = .done ⟨.timedOut, n, n * req.pollIntervalMs.toNat⟩ := by
  simp [stepPoll, h]

theorem stepPoll_thrown {req : WaitRequest} {n e : Nat}
    (h : ¬ req.timeoutMs.toNat < n * req.pollIntervalMs.toNat)
    (hpr : req.predicate n = .thrown e) :
    stepPoll req n = .done ⟨.predicateError e, n + 1, n * req.pollIntervalMs.toNat⟩ := by
  simp [stepPoll, h, hpr]

theorem stepPoll_true {req : WaitRequest} {n : Nat}
    (h : ¬ req.timeoutMs.toNat < n * req.pollIntervalMs.toNat)
    (hpr : req.predicate n = .ok true) :
    stepPoll req n = .done ⟨.satisfied, n + 1, n * req.pollIntervalMs.toNat⟩ := by
  simp [stepPoll, h, hpr]

theorem stepPoll_false {req : WaitRequest} {n : Nat}
    (h : ¬ req.timeoutMs.toNat < n * req.pollIntervalMs.toNat)
    (hpr : req.predicate n = .ok false) :
    stepPoll req n = .polling (n + 1) := by
  simp [stepPoll, h, hpr]

/-- Arithmetic helper: the first poll index past the deadline exists,
namely `t / p + 1`. -/
theorem lt_div_succ_mul (t : Nat) {p : Nat} (hp : 0 < p) : t < (t / p + 1) * p := by
  have h1 := Nat.div_add_mod t p
  have h2 := Nat.mod_lt t hp
  have h3 : (t / p + 1) * p = p * (t / p) + p := by ring
  omega

/-- With enough fuel to pass the deadline, the state machine always
reaches a terminal result. -/
theorem run_polling_isSome (req : WaitRequest) :
    ∀ f n, req.timeoutMs.toNat < (n + f) * req.pollIntervalMs.toNat →
      (run req (f + 1) (.polling n)).isSome = true := by
  intro f
  induction f with
  | zero =>
    intro n h
    rw [run_succ_polling]
    rw [Nat.add_zero] at h
    cases hco : req.cancelAt with
    | none =>
      rw [step_none hco, stepPoll_timedOut h, run_done]
      rfl
    | some c =>
      by_cases hcc : c ≤ n * req.pollIntervalMs.toNat
      · rw [step_cancel_hit hco hcc, run_done]; rfl
      · rw [step_cancel_miss hco hcc, stepPoll_timedOut h, run_done]; rfl
  | succ f ih =>
    intro n h
    rw [run_succ_polling]
    have hnext : req.timeoutMs.toNat < (n + 1 + f) * req.pollIntervalMs.toNat := by
      have e : n + 1 + f = n + (f + 1) := by omega
      rw [e]; exact h
    have hpoll : (run req (f + 1) (stepPoll req n)).isSome = true := by
      by_cases hto : req.timeoutMs.toNat < n * req.pollIntervalMs.toNat
      · rw [stepPoll_timedOut hto, run_done]; rfl
      · cases hpr : req.predicate n with
        | thrown e => rw [stepPoll_thrown hto hpr, run_done]; rfl
        | ok b =>
          cases b with
          | true => rw [stepPoll_true hto hpr, run_done]; rfl
          | false => rw [stepPoll_false hto hpr]; exact ih (n + 1) hnext
    cases hco : req.cancelAt with
    | none => rw [step_none hco]; exact hpoll
    | some c =>
      by_cases hcc : c ≤ n * req.pollIntervalMs.toNat
      · rw [step_cancel_hit hco hcc, run_done]; rfl
      · rw [step_cancel_miss hco hcc]; exact hpoll

/-- The wait operation always reports a terminal result. -/
theorem wait_isSome (req : WaitRequest) : (wait req).isSome = true := by
  unfold wait
  by_cases hinv : req.pollIntervalMs ≤ 0 ∨ req.timeoutMs ≤ 0
  · rw [if_pos hinv]; rfl
  · rw [if_neg hinv]
    have hp : 0 < req.pollIntervalMs.toNat := by omega
    have key := lt_div_succ_mul req.timeoutMs.toNat hp
    exact run_polling_isSome req (req.timeoutMs.toNat / req.pollIntervalMs.toNat + 1) 0
      (by simpa using key)

/-- If polls `n ≤ m < k` all find the predicate false, stay within the
deadline, and the request carries no cancellation signal, then the run
resolves exactly as the single step at poll `k` does. -/
theorem run_reaches {req : WaitRequest} {k : Nat} {r : WaitResult}
    (hc : req.cancelAt = none)
    (hstep : step req (.polling k) = .done r) :
    ∀ f n, k < n + f → n ≤ k →
      (∀ m, n ≤ m → m < k → req.predicate m = .ok false) →
      (∀ m, n ≤ m → m < k → m * req.pollIntervalMs.toNat ≤ req.timeoutMs.toNat) →
      run req f (.polling n) = some r := by
  intro f
  induction f with
  | zero => intro n h1 h2 _ _; omega
  | succ f ih =>
    intro n h1 h2 hpred hbound
    rw [run_succ_polling]
    rcases Nat.lt_or_ge n k with hnk | hnk
    · rw [step_none hc,
        stepPoll_false (Nat.not_lt.mpr (hbound n le_rfl hnk)) (hpred n le_rfl hnk)]
      exact ih (n + 1) (by omega) (by omega)
        (fun m hm1 hm2 => hpred m (by omega) hm2)
        (fun m hm1 hm2 => hbound m (by omega) hm2)
    · have hkn : n = k := le_antisymm h2 hnk
      subst hkn
      rw [hstep, run_done]

/-- On a well-formed request the wait operation is the polling state
machine run from poll 0 with fuel covering the whole deadline. -/
theorem wait_valid (req : WaitRequest)
    (hp : 0 < req.pollIntervalMs) (ht : 0 < req.timeoutMs) :
    wait req
      = run req (req.timeoutMs.toNat / req.pollIntervalMs.toNat + 2) (.polling 0) := by
  unfold wait
  rw [if_neg (by omega)]

/-- C2: for every WaitRequest — any predicate, including one that is
never true — the wait operation terminates with a reported result: the
polling loop is a finite state machine whose fuel is bounded by the
deadline, so it never hangs, and every outcome (including a malformed
request or a throwing predicate) is a returned value, never an
unhandled error. -/
theorem wait_always_resolves (req : WaitRequest) : (wait req).isSome = true :=
  wait_isSome req

/-- C4: a malformed request (non-positive poll interval or timeout) is
rejected synchronously with InvalidArgument, zero predicate
evaluations and zero elapsed time, before any polling begins. -/
theorem invalid_request_rejected (req : WaitRequest)
    (h : req.pollIntervalMs ≤ 0 ∨ req.timeoutMs ≤ 0) :
    wait req = some ⟨.invalidArgument, 0, 0⟩ := by
  unfold wait
  rw [if_pos h]

/-- Witness for C4: pollIntervalMs = 0 is rejected with zero
evaluations even though the predicate is immediately true. -/
theorem invalid_request_rejected_witness :
    wait ⟨fun _ => .ok true, 0, 5, none⟩ = some ⟨.invalidArgument, 0, 0⟩ :=
  invalid_request_rejected ⟨fun _ => .ok true, 0, 5, none⟩ (Or.inl (by decide))

/-- C1: on a well-formed request without cancellation whose predicate
never returns true, the wait resolves TimedOut, with elapsed time at
resolution at least timeoutMs and at most timeoutMs + pollIntervalMs. -/
theorem timedOut_within_interval (req : WaitRequest)
    (hp : 0 < req.pollIntervalMs) (ht : 0 < req.timeoutMs)
    (hc : req.cancelAt = none)
    (hpred : ∀ n, req.predicate n = .ok false) :
    ∃ r, wait req = some r ∧ r.outcome = .timedOut ∧
      req.timeoutMs ≤ (r.elapsed : Int) ∧
      (r.elapsed : Int) ≤ req.timeoutMs + req.pollIntervalMs := by
  have hp' : 0 < req.pollIntervalMs.toNat := by omega
  have hkey := lt_div_succ_mul req.timeoutMs.toNat hp'
  have hdm := Nat.div_mul_le_self req.timeoutMs.toNat req.pollIntervalMs.toNat
  have hNp : (req.timeoutMs.toNat / req.pollIntervalMs.toNat + 1) * req.pollIntervalMs.toNat
      = req.timeoutMs.toNat / req.pollIntervalMs.toNat * req.pollIntervalMs.toNat
        + req.pollIntervalMs.toNat := by ring
  refine ⟨⟨.timedOut, req.timeoutMs.toNat / req.pollIntervalMs.toNat + 1,
      (req.timeoutMs.toNat / req.pollIntervalMs.toNat + 1) * req.pollIntervalMs.toNat⟩,
    ?_, rfl, by dsimp only; omega, by dsimp only; omega⟩
  rw [wait_valid req hp ht]
  have hstep : step req (.polling (req.timeoutMs.toNat / req.pollIntervalMs.toNat + 1))
      = .done ⟨.timedOut, req.timeoutMs.toNat / req.pollIntervalMs.toNat + 1,
        (req.timeoutMs.toNat / req.pollIntervalMs.toNat + 1) * req.pollIntervalMs.toNat⟩ := by
    rw [step_none hc, stepPoll_timedOut hkey]
  refine run_reaches hc hstep _ 0 (by omega) (Nat.zero_le _)
    (fun m _ _ => hpred m) (fun m _ hm => ?_)
  have hm' : m ≤ req.timeoutMs.toNat / req.pollIntervalMs.toNat := by omega
  calc m * req.pollIntervalMs.toNat
      ≤ req.timeoutMs.toNat / req.pollIntervalMs.toNat * req.pollIntervalMs.toNat :=
        Nat.mul_le_mul_right _ hm'
    _ ≤ req.timeoutMs.toNat := hdm

/-- Witness for C1: a never-true predicate with poll interval 2 and
timeout 3 times out with elapsed time 4, inside the interval [3, 5]. -/
theorem timedOut_within_interval_witness :
    ∃ r, wait ⟨fun _ => .ok false, 2, 3, none⟩ = some r ∧ r.outcome = .timedOut ∧
      (3 : Int) ≤ (r.elapsed : Int) ∧ (r.elapsed : Int) ≤ 3 + 2 :=
  timedOut_within_interval ⟨fun _ => .ok false, 2, 3, none⟩ (by decide) (by decide) rfl
    (fun _ => rfl)

/-- C3: on a well-formed request without cancellation whose predicate
is true at call time, the wait resolves Satisfied with exactly one
predicate evaluation, performed immediately at elapsed time 0, before
any timer delay. -/
theorem satisfied_immediately (req : WaitRequest)
    (hp : 0 < req.pollIntervalMs) (ht : 0 < req.timeoutMs)
    (hc : req.cancelAt = none)
    (hpred : req.predicate 0 = .ok true) :
    wait req = some ⟨.satisfied, 1, 0⟩ := by
  rw [wait_valid req hp ht]
  have hstep : step req (.polling 0) = .done ⟨.satisfied, 1, 0⟩ := by
    rw [step_none hc, stepPoll_true (by simp) hpred]
    norm_num
  refine run_reaches hc hstep _ 0 ?_ le_rfl
    (fun m _ hm => absurd hm (Nat.not_lt_zero m))
    (fun m _ hm => absurd hm (Nat.not_lt_zero m))
  positivity

/-- Witness for C3: an immediately-true predicate resolves Satisfied
after a single evaluation at elapsed time 0. -/
theorem satisfied_immediately_witness :
    wait ⟨fun _ => .ok true, 5, 7, none⟩ = some ⟨.satisfied, 1, 0⟩ :=
  satisfied_immediately ⟨fun _ => .ok true, 5, 7, none⟩ (by decide) (by decide) rfl rfl

/-- C5: on a well-formed request without cancellation whose predicate
is false on the first k evaluations and true on evaluation k, with
poll k still inside the timeout budget, the wait resolves Satisfied
with exactly k + 1 predicate evaluations — none skipped, none
duplicated — at elapsed time k * pollIntervalMs. -/
theorem satisfied_after_k_polls (req : WaitRequest) (k : Nat)
    (hp : 0 < req.pollIntervalMs) (ht : 0 < req.timeoutMs)
    (hc : req.cancelAt = none)
    (hfalse : ∀ m, m < k → req.predicate m = .ok false)
    (htrue : req.predicate k = .ok true)
    (hbudget : k * req.pollIntervalMs.toNat ≤ req.timeoutMs.toNat) :
    wait req = some ⟨.satisfied, k + 1, k * req.pollIntervalMs.toNat⟩ := by
  have hp' : 0 < req.pollIntervalMs.toNat := by omega
  rw [wait_valid req hp ht]
  have hstep : step req (.polling k)
      = .done ⟨.satisfied, k + 1, k * req.pollIntervalMs.toNat⟩ := by
    rw [step_none hc, stepPoll_true (Nat.not_lt.mpr hbudget) htrue]
  have hk : k ≤ req.timeoutMs.toNat / req.pollIntervalMs.toNat :=
    (Nat.le_div_iff_mul_le hp').mpr hbudget
  refine run_reaches hc hstep _ 0 (by omega) (Nat.zero_le _)
    (fun m _ hm => hfalse m hm) (fun m _ hm => ?_)
  have h1 : m ≤ k := Nat.le_of_lt hm
  calc m * req.pollIntervalMs.toNat
      ≤ k * req.pollIntervalMs.toNat := Nat.mul_le_mul_right _ h1
    _ ≤ req.timeoutMs.toNat := hbudget

/-- Witness for C5: a predicate first true on evaluation 2 with poll
interval 10 and timeout 1000 resolves Satisfied after exactly 3
evaluations, at elapsed time 20 — the spec's worked example. -/
theorem satisfied_after_k_polls_witness :
    wait ⟨fun n => .ok (decide (2 ≤ n)), 10, 1000, none⟩
      = some ⟨.satisfied, 3, 20⟩ :=
  satisfied_after_k_polls ⟨fun n => .ok (decide (2 ≤ n)), 10, 1000, none⟩ 2
    (by decide) (by decide) rfl (by decide) (by decide) (by decide)

/-- C6: on a well-formed request without cancellation whose predicate
is false on the first k evaluations and throws on evaluation k (still
inside the timeout budget), the wait aborts at that evaluation with
PredicateError carrying the thrown error: exactly k + 1 evaluations
occur and no further polls happen afterwards. -/
theorem predicate_throw_aborts (req : WaitRequest) (k e : Nat)
    (hp : 0 < req.pollIntervalMs) (ht : 0 < req.timeoutMs)
    (hc : req.cancelAt = none)
    (hfalse : ∀ m, m < k → req.predicate m = .ok false)
    (hthrow : req.predicate k = .thrown e)
    (hbudget : k * req.pollIntervalMs.toNat ≤ req.timeoutMs.toNat) :
    wait req = some ⟨.predicateError e, k + 1, k * req.pollIntervalMs.toNat⟩ := by
  have hp' : 0 < req.pollIntervalMs.toNat := by omega
  rw [wait_valid req hp ht]
  have hstep : step req (.polling k)
      = .done ⟨.predicateError e, k + 1, k * req.pollIntervalMs.toNat⟩ := by
    rw [step_none hc, stepPoll_thrown (Nat.not_lt.mpr hbudget) hthrow]
  have hk : k ≤ req.timeoutMs.toNat / req.pollIntervalMs.toNat :=
    (Nat.le_div_iff_mul_le hp').mpr hbudget
  refine run_reaches hc hstep _ 0 (by omega) (Nat.zero_le _)
    (fun m _ hm => hfalse m hm) (fun m _ hm => ?_)
  have h1 : m ≤ k := Nat.le_of_lt hm
  calc m * req.pollIntervalMs.toNat
      ≤ k * req.pollIntervalMs.toNat := Nat.mul_le_mul_right _ h1
    _ ≤ req.timeoutMs.toNat := hbudget

/-- Witness for C6: a predicate that is false once and then throws
error 42 on evaluation 1 aborts with PredicateError 42 after exactly 2
evaluations, at elapsed time 5. -/
theorem predicate_throw_aborts_witness :
    wait ⟨fun n => if n = 1 then .thrown 42 else .ok false, 5, 100, none⟩
      = some ⟨.predicateError 42, 2, 5⟩ :=
  predicate_throw_aborts ⟨fun n => if n = 1 then .thrown 42 else .ok false, 5, 100, none⟩
    1 42 (by decide) (by decide) rfl (by decide) (by decide) (by decide)

/-- If polls `n ≤ m < N` all find the predicate false, occur strictly
before the cancellation time, and stay within the deadline, while poll
`N` happens at or after the cancellation time, then the run resolves
Cancelled at the raise time with exactly `N` evaluations. -/
theorem run_reaches_cancel {req : WaitRequest} {c N : Nat}
    (hc : req.cancelAt = some c)
    (hN : c ≤ N * req.pollIntervalMs.toNat) :
    ∀ f n, N < n + f → n ≤ N →
      (∀ m, n ≤ m → m < N → req.predicate m = .ok false ∧
        m * req.pollIntervalMs.toNat < c ∧
        m * req.pollIntervalMs.toNat ≤ req.timeoutMs.toNat) →
      run req f (.polling n) = some ⟨.cancelled, N, c⟩ := by
  intro f
  induction f with
  | zero => intro n h1 h2 _; omega
  | succ f ih =>
    intro n h1 h2 hm
    rw [run_succ_polling]
    rcases Nat.lt_or_ge n N with hnN | hnN
    · obtain ⟨hpf, hlt, hle⟩ := hm n le_rfl hnN
      rw [step_cancel_miss hc (by omega), stepPoll_false (Nat.not_lt.mpr hle) hpf]
      exact ih (n + 1) (by omega) (by omega) (fun m hm1 hm2 => hm m (by omega) hm2)
    · have hnN' : n = N := le_antisymm h2 hnN
      subst hnN'
      rw [step_cancel_hit hc hN, run_done]

/-- C7 as stated is false on this model: the predicate of this request
never returns true and its cancellation signal is raised at time 10,
but the wait resolves TimedOut — the deadline (timeoutMs 1, poll
interval 1) elapses at time 2, before the signal is ever raised, so
the outcome is not Cancelled. -/
theorem cancel_after_timeout_not_cancelled :
    (wait ⟨fun _ => .ok false, 1, 1, some 10⟩).map WaitResult.outcome
        = some Outcome.timedOut ∧
      (wait ⟨fun _ => .ok false, 1, 1, some 10⟩).map WaitResult.outcome
        ≠ some Outcome.cancelled := by
  constructor
  · rfl
  · decide

/-- C7 (amended): on a well-formed request whose cancellation signal is
raised at time c — no later than the poll at which the timeout would be
detected — and whose predicate never returns true before the
cancellation, the wait resolves Cancelled at elapsed time c after some
number n of evaluations, all of which happened strictly before the
cancellation time (no evaluation occurs after the signal is raised). -/
theorem cancelled_before_deadline (req : WaitRequest) (c : Nat)
    (hp : 0 < req.pollIntervalMs) (ht : 0 < req.timeoutMs)
    (hc : req.cancelAt = some c)
    (hcb : c ≤ (req.timeoutMs.toNat / req.pollIntervalMs.toNat + 1)
      * req.pollIntervalMs.toNat)
    (hpred : ∀ m, m * req.pollIntervalMs.toNat < c → req.predicate m = .ok false) :
    ∃ n, wait req = some ⟨.cancelled, n, c⟩ ∧
      ∀ m, m < n → m * req.pollIntervalMs.toNat < c := by
  have hp' : 0 < req.pollIntervalMs.toNat := by omega
  have hwait := wait_valid req hp ht
  by_cases hc0 : c = 0
  · subst hc0
    refine ⟨0, ?_, fun m hm => absurd hm (Nat.not_lt_zero m)⟩
    rw [hwait]
    refine run_reaches_cancel hc (Nat.zero_le _) _ 0 ?_ le_rfl
      (fun m _ hm2 => absurd hm2 (Nat.not_lt_zero m))
    positivity
  · have hlt := lt_div_succ_mul (c - 1) hp'
    have hN : c ≤ ((c - 1) / req.pollIntervalMs.toNat + 1) * req.pollIntervalMs.toNat := by
      omega
    have hmin : ∀ m, m < (c - 1) / req.pollIntervalMs.toNat + 1 →
        m * req.pollIntervalMs.toNat < c := by
      intro m hm
      have h1 : m ≤ (c - 1) / req.pollIntervalMs.toNat := by omega
      have h2 : m * req.pollIntervalMs.toNat ≤ c - 1 :=
        (Nat.le_div_iff_mul_le hp').mp h1
      omega
    have hbd : ∀ m, m < (c - 1) / req.pollIntervalMs.toNat + 1 →
        m * req.pollIntervalMs.toNat ≤ req.timeoutMs.toNat := by
      intro m hm
      have h1 : m * req.pollIntervalMs.toNat < c := hmin m hm
      have h2 : m * req.pollIntervalMs.toNat
          < (req.timeoutMs.toNat / req.pollIntervalMs.toNat + 1)
            * req.pollIntervalMs.toNat := by omega
      have h3 : m < req.timeoutMs.toNat / req.pollIntervalMs.toNat + 1 :=
        lt_of_mul_lt_mul_right h2 (Nat.zero_le _)
      have h4 : m ≤ req.timeoutMs.toNat / req.pollIntervalMs.toNat := by omega
      exact (Nat.le_div_iff_mul_le hp').mp h4
    have hfuel : (c - 1) / req.pollIntervalMs.toNat + 1
        ≤ req.timeoutMs.toNat / req.pollIntervalMs.toNat + 1 := by
      have h6 : c - 1 < (req.timeoutMs.toNat / req.pollIntervalMs.toNat + 1)
          * req.pollIntervalMs.toNat := by omega
      have h7 : (c - 1) / req.pollIntervalMs.toNat
          < req.timeoutMs.toNat / req.pollIntervalMs.toNat + 1 :=
        (Nat.div_lt_iff_lt_mul hp').mpr h6
      omega
    refine ⟨(c - 1) / req.pollIntervalMs.toNat + 1, ?_, hmin⟩
    rw [hwait]
    exact run_reaches_cancel hc hN _ 0 (by omega) (Nat.zero_le _)
      (fun m _ hm2 => ⟨hpred m (hmin m hm2), hmin m hm2, hbd m hm2⟩)

/-- Witness for the amended C7: poll interval 2, timeout 10, signal
raised at time 3, predicate never true: the wait resolves Cancelled at
elapsed time 3 after 2 evaluations (at times 0 and 2, both before the
signal). -/
theorem cancelled_before_deadline_witness :
    ∃ n, wait ⟨fun _ => .ok false, 2, 10, some 3⟩ = some ⟨.cancelled, n, 3⟩ ∧
      ∀ m, m < n → m * (2 : Int).toNat < 3 :=
  cancelled_before_deadline ⟨fun _ => .ok false, 2, 10, some 3⟩ 3
    (by decide) (by decide) rfl (by decide) (fun m _ => rfl)

/-- C8: every WaitRequest produces exactly one result — the wait
operation reports a unique terminal value — and terminal states are
absorbing: once the state machine is done, a further step leaves the
result unchanged, and running with any amount of extra fuel still
reports that same result. -/
theorem outcome_exactly_once (req : WaitRequest) :
    (∃! r, wait req = some r) ∧ (∀ r, step req (.done r) = .done r) ∧
      (∀ f r, run req f (.done r) = some r) := by
  refine ⟨?_, fun r => rfl, fun f r => run_done req f r⟩
  obtain ⟨r, hr⟩ := Option.isSome_iff_exists.mp (wait_isSome req)
  exact ⟨r, hr, fun r' hr' => by rw [hr] at hr'; exact (Option.some.inj hr').symm⟩

/-- Inversion for the Satisfied outcome: a run from any poll index that
reports Satisfied did so immediately after a true predicate
evaluation, the result counts that evaluation as the last one, and the
recorded elapsed time is that evaluation's poll time. -/
theorem run_satisfied_inversion (req : WaitRequest) :
    ∀ f n r, run req f (.polling n) = some r → r.outcome = .satisfied →
      ∃ k, n ≤ k ∧ r.evals = k + 1 ∧ req.predicate k = .ok true ∧
        r.elapsed = k * req.pollIntervalMs.toNat := by
  intro f
  induction f with
  | zero => intro n r h _; simp [run] at h
  | succ f ih =>
    intro n r h hout
    rw [run_succ_polling] at h
    have main : run req f (stepPoll req n) = some r →
        ∃ k, n ≤ k ∧ r.evals = k + 1 ∧ req.predicate k = .ok true ∧
          r.elapsed = k * req.pollIntervalMs.toNat := by
      intro hrun
      by_cases hto : req.timeoutMs.toNat < n * req.pollIntervalMs.toNat
      · rw [stepPoll_timedOut hto, run_done] at hrun
        have hr := Option.some.inj hrun
        subst hr
        exact absurd hout (by simp)
      · cases hpr : req.predicate n with
        | thrown e =>
          rw [stepPoll_thrown hto hpr, run_done] at hrun
          have hr := Option.some.inj hrun
          subst hr
          exact absurd hout (by simp)
        | ok b =>
          cases b with
          | true =>
            rw [stepPoll_true hto hpr, run_done] at hrun
            have hr := Option.some.inj hrun
            subst hr
            exact ⟨n, le_rfl, rfl, hpr, rfl⟩
          | false =>
            rw [stepPoll_false hto hpr] at hrun
            obtain ⟨k, hk1, hk2, hk3, hk4⟩ := ih (n + 1) r hrun hout
            exact ⟨k, by omega, hk2, hk3, hk4⟩
    cases hco : req.cancelAt with
    | none =>
      rw [step_none hco] at h
      exact main h
    | some c =>
      by_cases hcc : c ≤ n * req.pollIntervalMs.toNat
      · rw [step_cancel_hit hco hcc, run_done] at h
        have hr := Option.some.inj h
        subst hr
        exact absurd hout (by simp)
      · rw [step_cancel_miss hco hcc] at h
        exact main h

/-- C10: soundness of the Satisfied outcome — whenever the wait
resolves Satisfied, its most recent predicate evaluation returned
true: the reported evaluation count is k + 1 for some k whose
evaluation returned true, so Satisfied is never produced while the
condition is unmet. -/
theorem satisfied_sound (req : WaitRequest) (r : WaitResult)
    (h : wait req = some r) (hout : r.outcome = .satisfied) :
    ∃ k, r.evals = k + 1 ∧ req.predicate k = .ok true := by
  unfold wait at h
  by_cases hinv : req.pollIntervalMs ≤ 0 ∨ req.timeoutMs ≤ 0
  · rw [if_pos hinv] at h
    have hr := Option.some.inj h
    subst hr
    exact absurd hout (by simp)
  · rw [if_neg hinv] at h
    obtain ⟨k, _, hk2, hk3, _⟩ := run_satisfied_inversion req _ 0 r h hout
    exact ⟨k, hk2, hk3⟩

/-- Witness for C10: a wait that resolved Satisfied with one
evaluation indeed had its (single, most recent) evaluation return
true. -/
theorem satisfied_sound_witness :
    ∃ k, (⟨Outcome.satisfied, 1, 0⟩ : WaitResult).evals = k + 1 ∧
      WaitRequest.predicate ⟨fun _ => .ok true, 1, 1, none⟩ k = .ok true :=
  satisfied_sound ⟨fun _ => .ok true, 1, 1, none⟩ ⟨.satisfied, 1, 0⟩ (by decide) rfl

/-- Modelled from the spec: a wait request whose predicate reads an
explicit observable state of type `σ` (the caller-owned closure state
and any other observable state).  The waiter may invoke the predicate
on the state but owns no other access to it. -/
structure SWaitRequest (σ : Type) where
  predicate : σ → Nat → PredResult
  pollIntervalMs : Int
  timeoutMs : Int
  cancelAt : Option Nat

/-- The pure request a stateful request denotes once the observable
state is fixed at `s`. -/
def SWaitRequest.reqAt {σ : Type} (sreq : SWaitRequest σ) (s : σ) : WaitRequest :=
  ⟨sreq.predicate s, sreq.pollIntervalMs, sreq.timeoutMs, sreq.cancelAt⟩

/-- One poll of the state-threading waiter: the predicate reads the
observable state, which is carried through unchanged alongside the
successor machine state. -/
def stepPollS {σ : Type} (sreq : SWaitRequest σ) (s : σ) (n : Nat) : σ × WState :=
  let p := sreq.pollIntervalMs.toNat
  if sreq.timeoutMs.toNat < n * p then (s, .done ⟨.timedOut, n, n * p⟩)
  else
    match sreq.predicate s n with
    | .thrown e => (s, .done ⟨.predicateError e, n + 1, n * p⟩)
    | .ok true => (s, .done ⟨.satisfied, n + 1, n * p⟩)
    | .ok false => (s, .polling (n + 1))

/-- One transition of the state-threading waiter. -/
def stepS {σ : Type} (sreq : SWaitRequest σ) : σ × WState → σ × WState
  | (s, .done r) => (s, .done r)
  | (s, .polling n) =>
    match sreq.cancelAt with
    | some c =>
      if c ≤ n * sreq.pollIntervalMs.toNat then (s, .done ⟨.cancelled, n, c⟩)
      else stepPollS sreq s n
    | none => stepPollS sreq s n

/-- Run the state-threading waiter, reporting the terminal result
together with the final observable state. -/
def runS {σ : Type} (sreq : SWaitRequest σ) : Nat → σ × WState → Option (WaitResult × σ)
  | 0, (s, w) =>
    match w with
    | .done r => some (r, s)
    | .polling _ => none
  | fuel + 1, (s, w) =>
    match w with
    | .done r => some (r, s)
    | .polling n => runS sreq fuel (stepS sreq (s, .polling n))

/-- The wait operation over an explicit observable state. -/
def waitS {σ : Type} (sreq : SWaitRequest σ) (s : σ) : Option (WaitResult × σ) :=
  if sreq.pollIntervalMs ≤ 0 ∨ sreq.timeoutMs ≤ 0 then
    some (⟨.invalidArgument, 0, 0⟩, s)
  else
    runS sreq (sreq.timeoutMs.toNat / sreq.pollIntervalMs.toNat + 2) (s, .polling 0)

theorem stepPollS_eq {σ : Type} (sreq : SWaitRequest σ) (s : σ) (n : Nat) :
    stepPollS sreq s n = (s, stepPoll (sreq.reqAt s) n) := by
  by_cases hto : sreq.timeoutMs.toNat < n * sreq.pollIntervalMs.toNat
  · simp [stepPollS, stepPoll, SWaitRequest.reqAt, hto]
  · cases hpr : sreq.predicate s n with
    | thrown e => simp [stepPollS, stepPoll, SWaitRequest.reqAt, hto, hpr]
    | ok b => cases b <;> simp [stepPollS, stepPoll, SWaitRequest.reqAt, hto, hpr]

theorem stepS_eq {σ : Type} (sreq : SWaitRequest σ) (s : σ) (w : WState) :
    stepS sreq (s, w) = (s, step (sreq.reqAt s) w) := by
  cases w with
  | done r => rfl
  | polling n =>
    cases hco : sreq.cancelAt with
    | none => simp [stepS, step, SWaitRequest.reqAt, hco, stepPollS_eq]
    | some c =>
      by_cases hcc : c ≤ n * sreq.pollIntervalMs.toNat
      · simp [stepS, step, SWaitRequest.reqAt, hco, hcc]
      · simp [stepS, step, SWaitRequest.reqAt, hco, hcc, stepPollS_eq]

theorem runS_eq {σ : Type} (sreq : SWaitRequest σ) (s : σ) :
    ∀ f w, runS sreq f (s, w) = (run (sreq.reqAt s) f w).map (fun r => (r, s)) := by
  intro f
  induction f with
  | zero => intro w; cases w <;> rfl
  | succ f ih =>
    intro w
    cases w with
    | done r => rfl
    | polling n =>
      have h1 : runS sreq (f + 1) (s, .polling n)
          = runS sreq f (stepS sreq (s, .polling n)) := rfl
      rw [run_succ_polling, h1, stepS_eq]
      exact ih _

/-- C9: the wait operation's only interaction with observable state is
invoking the predicate on it: the state-threading waiter returns the
observable state unchanged, and its result is exactly the pure wait of
the request the predicate sees in that state — the wait never mutates
the request, the predicate, or any state in the predicate's closure. -/
theorem wait_frame {σ : Type} (sreq : SWaitRequest σ) (s : σ) :
    waitS sreq s = (wait (sreq.reqAt s)).map (fun r => (r, s)) := by
  unfold waitS wait SWaitRequest.reqAt
  dsimp only
  by_cases hinv : sreq.pollIntervalMs ≤ 0 ∨ sreq.timeoutMs ≤ 0
  · rw [if_pos hinv, if_pos hinv]
    rfl
  · rw [if_neg hinv, if_neg hinv]
    exact runS_eq sreq s _ _
